import Mathlib

/-!
Verification development for the centry_logging log-shipping pipeline.

The Python source is shallowly embedded: each relevant class method becomes an
executable Lean function over explicit state; Python dicts become association
lists with insertion-order update semantics, Python sets become `Finset String`,
exceptions become `Except` / explicit failure flags, and wall-clock readings are
passed explicitly as integers.
-/

namespace CentryLog

/-! ## Secret formatter: secret-set model (`formatters/secret.py`)

`SecretFormatter.__init__` assigns `self.secrets = set()` and immediately calls
`self.update_secrets(secrets)`; `self.restricted_stop_words` is only assigned
afterwards.  `update_secrets` merges secrets from a formatter, a handler, a
logger or an iterable of strings and then calls `__censor_stop_words`, which
reads `restricted_stop_words`.  We model the object with the late-assigned
attribute as an `Option`, so reading it before assignment is an
`AttributeError`. -/

inductive PyError where
  | attributeError
deriving DecidableEq

/-- The possible non-`None` arguments of `update_secrets`: another
`SecretFormatter` (its secret set), a `logging.Handler` (the secret set of its
formatter, when that formatter is a `SecretFormatter`), a `logging.Logger`
(secret sets of its handlers' `SecretFormatter`s), or an iterable of strings. -/
inductive SecretsSource where
  | formatter (secrets : Finset String)
  | handler (fmtSecrets : Option (Finset String))
  | logger (handlers : List (Option (Finset String)))
  | strings (items : List String)

/-- The set of secrets contributed by a source in `update_secrets`
(`secret.py` lines 58-71). -/
def sourceSecrets : SecretsSource → Finset String
  | .formatter s => s
  | .handler (some s) => s
  | .handler none => ∅
  | .logger hs => hs.foldl (fun acc h => acc ∪ h.getD ∅) ∅
  | .strings items => items.toFinset

/-- The observable state of a `SecretFormatter`: its secret set and its
`restricted_stop_words` attribute (`none` while not yet assigned). -/
structure PyFormatter where
  secrets : Finset String
  restricted_stop_words : Option (Finset String)
deriving DecidableEq

/-- `SecretFormatter.__censor_stop_words` (`secret.py` lines 75-80): removes
every element of `restricted_stop_words` from the secret set; reading the
attribute before assignment raises `AttributeError`. -/
def censorStopWords (f : PyFormatter) : Except PyError PyFormatter :=
  match f.restricted_stop_words with
  | none => .error .attributeError
  | some stops => .ok { f with secrets := f.secrets \ stops }

/-- `SecretFormatter.update_secrets` (`secret.py` lines 52-73): `None` returns
early; any other source is merged into the secret set and then the stop words
are censored. -/
def update_secrets (f : PyFormatter) (src : Option SecretsSource) :
    Except PyError PyFormatter :=
  match src with
  | none => .ok f
  | some s => censorStopWords { f with secrets := f.secrets ∪ sourceSecrets s }

/-- `SecretFormatter.__init__` (`secret.py` lines 29-50), restricted to the
attributes of the secret-set model: `self.secrets = set()`, then
`self.update_secrets(secrets)`, and only afterwards
`self.restricted_stop_words = {'', self.replacer}`. -/
def secretFormatterInit (secrets : Option SecretsSource) (replacer : String) :
    Except PyError PyFormatter :=
  match update_secrets { secrets := ∅, restricted_stop_words := none } secrets with
  | .error e => .error e
  | .ok f => .ok { f with restricted_stop_words := some ({"", replacer} : Finset String) }

/-! ## `init` secret migration (`log.py` lines 180-185)

On (re)initialization, for every handler currently installed on the root
logger, `init` calls `state.formatter.update_secrets(handler)` on the freshly
built formatter before removing the handler.  Each root handler is modelled by
the secret set of its formatter (`none` when its formatter is not a
`SecretFormatter`). -/

/-- The secret set accumulated by the new formatter after the
remove-existing-handlers loop of `init`: starting from the fresh formatter's
empty set, each handler merges its formatter's secrets (nothing if not a
`SecretFormatter`) and the stop words `{'' , replacer}` are censored. -/
def initMergeSecrets (replacer : String)
    (rootHandlers : List (Option (Finset String))) : Finset String :=
  rootHandlers.foldl
    (fun acc h => (acc ∪ h.getD ∅) \ ({"", replacer} : Finset String)) ∅

/-- `init` (`log.py` lines 100-196), restricted to the secret set of the new
formatter: a second call without `force` is a no-op; otherwise a fresh
`SecretFormatter` is built and absorbs the secrets of the handlers installed
on the root logger. -/
def initNewFormatterSecrets (alreadyInitialized force : Bool) (replacer : String)
    (rootHandlers : List (Option (Finset String))) : Option (Finset String) :=
  if alreadyInitialized && !force then none
  else some (initMergeSecrets replacer rootHandlers)

/-! ## HTTP-push emitter retry loop (`emitters/loki.py` lines 87-106)

`post_data` runs `for _ in range(self.retries)`: each iteration connects,
posts, and calls `response.raise_for_status()` (which raises exactly for
status codes in [400, 600)); on any exception it disconnects, sleeps the retry
delay and retries; a non-raising response is returned immediately; after the
loop `RuntimeError("Retries exceeded")` is raised.  Each attempt's interaction
with the sink is an `AttemptOutcome`; the observable behaviour is the returned
result plus the ordered trace of actions. -/

inductive AttemptOutcome where
  | exc
  | resp (status : Nat)
deriving DecidableEq

/-- `requests.Response.raise_for_status` raises for 4xx and 5xx statuses. -/
def raisesForStatus (status : Nat) : Bool :=
  decide (400 ≤ status) && decide (status < 600)

/-- An attempt fails when the POST raises or the response status raises. -/
def attemptFails : AttemptOutcome → Bool
  | .exc => true
  | .resp st => raisesForStatus st

inductive PdAction where
  | attempt (i : Nat)
  | disconnect
  | sleepRetryDelay
deriving DecidableEq

inductive PdResult where
  | success (attemptIdx status : Nat)
  | retriesExceeded
deriving DecidableEq

/-- The retry loop of `post_data`, from attempt index `i` with `remaining`
iterations left. -/
def postDataGo (outcome : Nat → AttemptOutcome) : Nat → Nat → PdResult × List PdAction
  | _, 0 => (.retriesExceeded, [])
  | i, remaining + 1 =>
    match outcome i with
    | .exc =>
      let r := postDataGo outcome (i + 1) remaining
      (r.1, .attempt i :: .disconnect :: .sleepRetryDelay :: r.2)
    | .resp st =>
      if raisesForStatus st then
        let r := postDataGo outcome (i + 1) remaining
        (r.1, .attempt i :: .disconnect :: .sleepRetryDelay :: r.2)
      else
        (.success i st, [.attempt i])

/-- `CarrierLokiLogEmitter.post_data` (`emitters/loki.py` lines 87-106). -/
def post_data (retries : Nat) (outcome : Nat → AttemptOutcome) :
    PdResult × List PdAction :=
  postDataGo outcome 0 retries

/-- The per-failure action triple: the attempt, then `self.disconnect()`,
then `time.sleep(self.retry_delay)`. -/
def failTrace (i : Nat) : List PdAction :=
  [.attempt i, .disconnect, .sleepRetryDelay]

/-- Sink behaviour of the spec scenario: 500 on the first two attempts, 200 on
the third. -/
def c2SinkA : Nat → AttemptOutcome :=
  fun i => if i < 2 then .resp 500 else .resp 200

/-- Sink behaviour of the spec scenario: always 500. -/
def c2SinkB : Nat → AttemptOutcome :=
  fun _ => .resp 500

/-! ## Label maps and the emitters' label merge
(`emitters/loki.py` lines 108-145, `emitters/eventnode.py` lines 28-65)

A Python dict is an association list with insertion order: `d[k] = v`
overwrites in place when `k` is present and appends otherwise;
`d.update(u)` applies that for every pair of `u` in order.

`emit_line` / `emit` / `emit_batch` bind `labels = self.default_labels` (an
alias, not a copy) and then call `labels.update(additional_labels)`, so the
merge mutates the emitter's default label map; each model function returns
the value of `self.default_labels` after the call together with the payload
built. -/

def dictSet (d : List (String × String)) (k v : String) :
    List (String × String) :=
  if d.any (fun p => p.1 == k) then
    d.map (fun p => if p.1 == k then (k, v) else p)
  else d ++ [(k, v)]

def dictUpdate (d u : List (String × String)) : List (String × String) :=
  u.foldl (fun acc p => dictSet acc p.1 p.2) d

/-- One stream of the Loki wire payload. -/
structure LokiStream where
  stream : List (String × String)
  values : List (Int × String)
deriving DecidableEq

/-- `CarrierLokiLogEmitter.emit_line` (`emitters/loki.py` lines 108-125):
returns (`self.default_labels` after the call, the posted stream). -/
def lokiEmitLine (default_labels : List (String × String)) (ts : Int)
    (line : String) (additional : Option (List (String × String))) :
    List (String × String) × LokiStream :=
  let labels :=
    match additional with
    | none => default_labels
    | some ad => dictUpdate default_labels ad
  (labels, { stream := labels, values := [(ts, line)] })

/-- One record of the pub/sub `"log_data"` payload. -/
structure ENRecord where
  line : String
  time : Int
  labels : List (String × String)
deriving DecidableEq

/-- `EventNodeLogEmitter.emit` (`emitters/eventnode.py` lines 28-42): returns
(`self.default_labels` after the call, the emitted record). -/
def eventNodeEmit (default_labels : List (String × String)) (line : String)
    (time : Int) (additional : Option (List (String × String))) :
    List (String × String) × ENRecord :=
  let log_labels :=
    match additional with
    | none => default_labels
    | some ad => dictUpdate default_labels ad
  (log_labels, { line := line, time := time, labels := log_labels })

/-! ## Buffered handlers (`handlers/loki.py` lines 70-136,
`handlers/eventnode.py` lines 80-153)

`logging.handlers.BufferingHandler.emit` appends the record to the buffer and
flushes when `shouldFlush` holds.  `flush` pops records off the front of the
buffer one at a time inside a `try`, formatting each (`self.format` may
raise, modelled by an `Option`-valued formatter); in locked mode the batch is
transmitted inside the `try`, in unlocked mode after the `finally`;
`last_flush` is set to the current time in the `finally` either way.  The
single `transmitOk` flag says whether this flush's `emit_batch` call
succeeds; `emitted` records the batches the emitter successfully received. -/

structure LogRecord where
  created : Int
  levelname : String
  name : String
deriving DecidableEq

structure LokiBufState where
  buffer : List LogRecord
  lastFlush : Int
  emitted : List (List (Int × String))
deriving DecidableEq

/-- The drain loop of `CarrierLokiBufferedLogHandler.flush` (`handlers/loki.py`
lines 107-113): returns (the `log_records` local, the records left in the
buffer, whether the loop finished without a formatting exception). -/
def lokiDrain (fmt : LogRecord → Option String) :
    List LogRecord → List (Int × String) →
      List (Int × String) × List LogRecord × Bool
  | [], acc => (acc, [], true)
  | r :: rest, acc =>
    match fmt r with
    | some d => lokiDrain fmt rest (acc ++ [(r.created * 1000000000, d)])
    | none => (acc, rest, false)

/-- `CarrierLokiBufferedLogHandler.flush` (`handlers/loki.py` lines 104-135). -/
def lokiFlush (fmt : LogRecord → Option String) (flushLocked transmitOk : Bool)
    (now : Int) (s : LokiBufState) : LokiBufState :=
  let dr := lokiDrain fmt s.buffer []
  let recs := dr.1
  let remaining := dr.2.1
  let ok := dr.2.2
  let emittedLocked :=
    if flushLocked && ok && !recs.isEmpty && transmitOk then s.emitted ++ [recs]
    else s.emitted
  let s1 : LokiBufState :=
    { buffer := remaining, lastFlush := now, emitted := emittedLocked }
  if !flushLocked && !recs.isEmpty && transmitOk then
    { s1 with emitted := s1.emitted ++ [recs] }
  else s1

/-- `CarrierLokiBufferedLogHandler.shouldFlush` (`handlers/loki.py`
lines 98-102). -/
def lokiShouldFlush (capacity : Nat) (interval now : Int) (s : LokiBufState) :
    Bool :=
  decide (capacity ≤ s.buffer.length) || decide (interval ≤ now - s.lastFlush)

/-- `logging.handlers.BufferingHandler.emit` specialised to the Loki buffered
handler: append the record, then flush if `shouldFlush` holds. -/
def lokiHandlerEmit (fmt : LogRecord → Option String)
    (flushLocked transmitOk : Bool) (capacity : Nat) (interval now : Int)
    (r : LogRecord) (s : LokiBufState) : LokiBufState :=
  let s1 : LokiBufState := { s with buffer := s.buffer ++ [r] }
  if lokiShouldFlush capacity interval now s1 then
    lokiFlush fmt flushLocked transmitOk now s1
  else s1

/-- The `additional_labels` dict built per record by
`EventNodeBufferedLogHandler.flush` (`handlers/eventnode.py` lines 120-124). -/
def enLabels (includeLevel includeLogger : Bool) (r : LogRecord) :
    List (String × String) :=
  let l0 : List (String × String) := []
  let l1 := if includeLevel then dictSet l0 "level" r.levelname else l0
  if includeLogger then dictSet l1 "logger" r.name else l1

structure ENBufState where
  buffer : List LogRecord
  lastFlush : Int
  emitted : List (List ENRecord)
deriving DecidableEq

/-- The drain loop of `EventNodeBufferedLogHandler.flush`
(`handlers/eventnode.py` lines 113-130). -/
def enDrain (includeLevel includeLogger : Bool)
    (fmt : LogRecord → Option String) :
    List LogRecord → List ENRecord → List ENRecord × List LogRecord × Bool
  | [], acc => (acc, [], true)
  | r :: rest, acc =>
    match fmt r with
    | some line =>
      enDrain includeLevel includeLogger fmt rest
        (acc ++ [{ line := line, time := r.created,
                   labels := enLabels includeLevel includeLogger r }])
    | none => (acc, rest, false)

/-- `EventNodeBufferedLogHandler.flush` (`handlers/eventnode.py`
lines 110-153). -/
def enFlush (includeLevel includeLogger : Bool)
    (fmt : LogRecord → Option String) (flushLocked transmitOk : Bool)
    (now : Int) (s : ENBufState) : ENBufState :=
  let dr := enDrain includeLevel includeLogger fmt s.buffer []
  let recs := dr.1
  let remaining := dr.2.1
  let ok := dr.2.2
  let emittedLocked :=
    if flushLocked && ok && !recs.isEmpty && transmitOk then s.emitted ++ [recs]
    else s.emitted
  let s1 : ENBufState :=
    { buffer := remaining, lastFlush := now, emitted := emittedLocked }
  if !flushLocked && !recs.isEmpty && transmitOk then
    { s1 with emitted := s1.emitted ++ [recs] }
  else s1

/-- A formatter whose `format` raises exactly on records named `"bad"`. -/
def c5Fmt : LogRecord → Option String :=
  fun r => if r.name == "bad" then none else some r.name

/-! ## Base64 truncation filter (`filters/truncate_base64.py`)

`Base64SanitizationFilter.filter` leaves records with `levelno <
logging.DEBUG` (= 10) untouched; otherwise it applies
`re.sub(r'data:image/[^;]+;base64,[A-Za-z0-9+/]\x7b20,\x7d[=]*', ...)` to the
message, sanitizing each match with `_sanitize_base64_url`.  The regex is
embedded directly: at each scan position the pattern matches the literal
`data:image/`, then a maximal non-empty run of non-`;` characters followed by
the literal `;base64,`, then a maximal run of at least 20 base64-alphabet
characters, then a maximal run of `=`; `re.sub` replaces non-overlapping
matches left to right. -/

def isB64Char (c : Char) : Bool :=
  c.isAlpha || c.isDigit || c == '+' || c == '/'

/-- The truncation marker appended by `_sanitize_base64_url`. -/
def b64Marker : List Char := "...[base64 truncated]".data

/-- Length of the regex match of the base64 data-URI pattern at the head of
`l`, if any. -/
def matchB64At (l : List Char) : Option Nat :=
  if ("data:image/".data).isPrefixOf l then
    let rest0 := l.drop 11
    let st := rest0.takeWhile (fun c => c != ';')
    if st.isEmpty then none
    else
      let rest1 := rest0.drop st.length
      if (";base64,".data).isPrefixOf rest1 then
        let rest2 := rest1.drop 8
        let run := rest2.takeWhile isB64Char
        if run.length < 20 then none
        else
          let pads := (rest2.drop run.length).takeWhile (fun c => c == '=')
          some (11 + st.length + 8 + run.length + pads.length)
      else none
  else none

/-- `url.split(';base64,', 1)`: splits at the first occurrence of the literal
`;base64,`. -/
def splitOnB64 : List Char → Option (List Char × List Char)
  | [] => none
  | c :: rest =>
    if (";base64,".data).isPrefixOf (c :: rest) then
      some ([], (c :: rest).drop 8)
    else
      match splitOnB64 rest with
      | none => none
      | some p => some (c :: p.1, p.2)

/-- `Base64SanitizationFilter._sanitize_base64_url`
(`truncate_base64.py` lines 81-97). -/
def sanitizeB64Url (maxChars : Nat) (url : List Char) : List Char :=
  match splitOnB64 url with
  | none => url
  | some p =>
    if maxChars < p.2.length then
      p.1 ++ ";base64,".data ++ p.2.take maxChars ++ b64Marker
    else url

/-- `re.sub` over the base64 pattern with `_sanitize_base64_url` as the
replacement function; `fuel` bounds the scan (every step consumes at least
one character, so `l.length` suffices). -/
def b64SubGo (maxChars : Nat) : Nat → List Char → List Char
  | 0, l => l
  | fuel + 1, [] => []
  | fuel + 1, c :: rest =>
    match matchB64At (c :: rest) with
    | some L =>
      sanitizeB64Url maxChars ((c :: rest).take L)
        ++ b64SubGo maxChars fuel ((c :: rest).drop L)
    | none => c :: b64SubGo maxChars fuel rest

def b64Sub (maxChars : Nat) (l : List Char) : List Char :=
  b64SubGo maxChars l.length l

/-- `Base64SanitizationFilter.filter` (`truncate_base64.py` lines 99-137):
returns (the boolean returned to the logging framework — always `True` — and
`record.msg` after the call).  `logging.DEBUG = 10`. -/
def base64FilterRecord (maxChars : Nat) (levelno : Int) (msg : List Char) :
    Bool × List Char :=
  if levelno < 10 then (true, msg)
  else (true, b64Sub maxChars msg)

/-! ## Word-boundary secret redaction (`formatters/secret.py` lines 82-104)

`re_pattern` compiles `\b(?:s₁|s₂|…)\b` over the escaped secrets and
`replacer_re` applies `re.sub` with the replacement token.  The regex
semantics are embedded directly: `\b` matches where exactly one side is a
word character (the ends of the text count as non-word); `re.sub` scans left
to right, and at each position takes the first alternative that matches with
both boundary assertions satisfied (a later alternative is tried when an
earlier one fails its trailing `\b`); a match is replaced and the scan
resumes after it, so matches never overlap.  The character preceding the
resume position is the last character of the matched secret in the original
text.

Python compiles `str` patterns with Unicode semantics, so `\w` is the set of
Unicode word characters (alphanumerics as defined by `str.isalnum`, plus the
underscore) — a classifier whose full Unicode tables are not reproduced
here.  Every definition is therefore parameterized by that classifier
`wc : Char → Bool`; instantiating `wc` with Python's Unicode word predicate
yields the program's behaviour, and the theorems below hold for every
classifier.  On ASCII code points the Unicode classifier coincides with
`[A-Za-z0-9_]`, given by `asciiWordChar`, which is used to evaluate the
model on concrete all-ASCII inputs. -/

/-- Python's `\w` restricted to ASCII code points: on ASCII characters the
Unicode word classifier is exactly `[A-Za-z0-9_]`. -/
def asciiWordChar (c : Char) : Bool :=
  c.isAlphanum || c == '_'

/-- Word-character status of an optional neighbouring character; the ends of
the text behave as non-word. -/
def optWord (wc : Char → Bool) : Option Char → Bool
  | none => false
  | some c => wc c

/-- `\b` between two (optional) adjacent characters. -/
def bdryB (wc : Char → Bool) (a b : Option Char) : Bool :=
  optWord wc a != optWord wc b

/-- One alternative `s` of the pattern matches at the current position:
`s` is non-empty, is a literal prefix of the remaining text, and both `\b`
assertions hold (`prev` is the character before the position). -/
def matchOk (wc : Char → Bool) (prev : Option Char) (text : List Char)
    (s : List Char) : Bool :=
  !s.isEmpty && s.isPrefixOf text && bdryB wc prev s.head?
    && bdryB wc s.getLast? ((text.drop s.length).head?)

/-- The first alternative of the alternation that matches at the current
position, in the order the secrets appear in the pattern. -/
def firstMatch (wc : Char → Bool) (secrets : List (List Char))
    (prev : Option Char) (text : List Char) : Option (List Char) :=
  secrets.find? (matchOk wc prev text)

/-- The scan loop of `re.sub`; `fuel` bounds the scan (every step consumes at
least one character, so `text.length` suffices). -/
def subReGo (wc : Char → Bool) (secrets : List (List Char)) (repl : List Char) :
    Nat → Option Char → List Char → List Char
  | 0, _, l => l
  | _ + 1, _, [] => []
  | fuel + 1, prev, c :: rest =>
    match firstMatch wc secrets prev (c :: rest) with
    | some s =>
      repl ++ subReGo wc secrets repl fuel s.getLast? ((c :: rest).drop s.length)
    | none => c :: subReGo wc secrets repl fuel (some c) rest

/-- `SecretFormatter.replacer_re` (`secret.py` lines 87-89):
`re.sub(self.re_pattern, self.replacer, text)`, over the word classifier
`wc`. -/
def replacer_re (wc : Char → Bool) (secrets : List (List Char))
    (repl : List Char) (text : List Char) : List Char :=
  subReGo wc secrets repl text.length none text

/-- `SecretFormatter.format` (`secret.py` lines 98-104) applied to the
base-rendered text, with the word-boundary replacer selected. -/
def secretFormatterFormat (wc : Char → Bool) (secrets : List (List Char))
    (repl : List Char) (rendered : List Char) : List Char :=
  if secrets.isEmpty then rendered else replacer_re wc secrets repl rendered

/-- Specification-side redaction for word-character-only secrets: decompose
the text into maximal word runs and single non-word characters, and replace
exactly the word runs that equal a secret by the replacement token. -/
def redactSpecWords (wc : Char → Bool) (secrets : List (List Char))
    (repl : List Char) : Nat → List Char → List Char
  | 0, l => l
  | _ + 1, [] => []
  | fuel + 1, c :: rest =>
    if wc c then
      (if (c :: rest).takeWhile wc ∈ secrets then repl
       else (c :: rest).takeWhile wc)
        ++ redactSpecWords wc secrets repl fuel ((c :: rest).dropWhile wc)
    else c :: redactSpecWords wc secrets repl fuel rest

def redactSpec (wc : Char → Bool) (secrets : List (List Char))
    (repl : List Char) (text : List Char) : List Char :=
  redactSpecWords wc secrets repl text.length text

/-- The secret `s` has a word-boundary-bounded occurrence at position `i` of
`text`. -/
def occursBoundedAt (wc : Char → Bool) (s text : List Char) (i : Nat) : Bool :=
  matchOk wc ((text.take i).getLast?) (text.drop i) s

/-- Number of positions of `text` at which `s` occurs bounded by word
boundaries. -/
def boundedOccCount (wc : Char → Bool) (s text : List Char) : Nat :=
  ((List.range (text.length + 1)).filter
    (fun i => occursBoundedAt wc s text i)).length

/-- Number of positions of `text` at which `pat` occurs as a literal
substring. -/
def countOcc (pat text : List Char) : Nat :=
  ((List.range (text.length + 1)).filter
    (fun i => pat.isPrefixOf (text.drop i))).length

/-!
# Theorems
-/

/-! ## Retry loop lemmas -/

theorem postDataGo_fail_step (outcome : Nat → AttemptOutcome) (i rem : Nat)
    (h : attemptFails (outcome i) = true) :
    postDataGo outcome i (rem + 1) =
      ((postDataGo outcome (i + 1) rem).1,
        .attempt i :: .disconnect :: .sleepRetryDelay :: (postDataGo outcome (i + 1) rem).2) := by
  conv_lhs => rw [postDataGo]
  cases ho : outcome i with
  | exc => simp
  | resp st =>
    rw [ho] at h
    simp only [attemptFails] at h
    simp [h]

theorem postDataGo_success_step (outcome : Nat → AttemptOutcome) (i rem st : Nat)
    (ho : outcome i = .resp st) (h : raisesForStatus st = false) :
    postDataGo outcome i (rem + 1) = (.success i st, [.attempt i]) := by
  conv_lhs => rw [postDataGo]
  rw [ho]
  simp [h]

theorem postDataGo_first_success (outcome : Nat → AttemptOutcome) :
    ∀ (remaining start d st : Nat), d < remaining →
      (∀ j, j < d → attemptFails (outcome (start + j)) = true) →
      outcome (start + d) = .resp st → raisesForStatus st = false →
      postDataGo outcome start remaining =
        (.success (start + d) st,
          (List.range d).flatMap (fun t => failTrace (start + t)) ++ [.attempt (start + d)]) := by
  intro remaining
  induction remaining with
  | zero => intro start d st hd; omega
  | succ rem ih =>
    intro start d st hd hfails ho hst
    cases d with
    | zero =>
      simp only [Nat.add_zero] at ho
      rw [postDataGo_success_step outcome start rem st ho hst]
      simp
    | succ d' =>
      have h0 : attemptFails (outcome start) = true := by
        have := hfails 0 (by omega)
        simpa using this
      rw [postDataGo_fail_step outcome start rem h0]
      have harg : ∀ j, j < d' → attemptFails (outcome (start + 1 + j)) = true := by
        intro j hj
        have := hfails (j + 1) (by omega)
        have he : start + (j + 1) = start + 1 + j := by omega
        rwa [he] at this
      have ho' : outcome (start + 1 + d') = .resp st := by
        have he : start + (d' + 1) = start + 1 + d' := by omega
        rwa [he] at ho
      rw [ih (start + 1) d' st (by omega) harg ho' hst]
      have he : start + 1 + d' = start + (d' + 1) := by omega
      rw [he]
      simp only [List.range_succ_eq_map, List.flatMap_cons, List.flatMap_map]
      have harith : ∀ t : Nat, start + 1 + t = start + (t + 1) := by omega
      simp [failTrace, Function.comp, harith]

theorem postDataGo_all_fail (outcome : Nat → AttemptOutcome) :
    ∀ (remaining start : Nat),
      (∀ j, j < remaining → attemptFails (outcome (start + j)) = true) →
      postDataGo outcome start remaining =
        (.retriesExceeded, (List.range remaining).flatMap (fun t => failTrace (start + t))) := by
  intro remaining
  induction remaining with
  | zero => intro start _; rfl
  | succ rem ih =>
    intro start hfails
    have h0 : attemptFails (outcome start) = true := by
      have := hfails 0 (by omega)
      simpa using this
    rw [postDataGo_fail_step outcome start rem h0]
    have harg : ∀ j, j < rem → attemptFails (outcome (start + 1 + j)) = true := by
      intro j hj
      have := hfails (j + 1) (by omega)
      have he : start + (j + 1) = start + 1 + j := by omega
      rwa [he] at this
    rw [ih (start + 1) harg]
    simp only [List.range_succ_eq_map, List.flatMap_cons, List.flatMap_map]
    have harith : ∀ t : Nat, start + 1 + t = start + (t + 1) := by omega
    simp [failTrace, Function.comp, harith]

/-- C2 (amended): `post_data` makes attempts in order and returns at the first
attempt whose POST does not raise and whose response status is outside
[400, 600) (in particular at any 2xx, but also at e.g. 3xx); when the first
such attempt is attempt `k < retries` it makes exactly `k + 1` attempts, with
a disconnect and a retry-delay sleep after each of the `k` failures; if all
`retries` attempts fail it makes exactly `retries` attempts, disconnecting and
sleeping after each, and raises `RuntimeError("Retries exceeded")`. -/
theorem c2_post_data_first_success_or_exhaust (retries : Nat)
    (outcome : Nat → AttemptOutcome) :
    (∀ k st, k < retries → (∀ j, j < k → attemptFails (outcome j) = true) →
      outcome k = .resp st → raisesForStatus st = false →
      post_data retries outcome =
        (.success k st, (List.range k).flatMap failTrace ++ [.attempt k])) ∧
    ((∀ j, j < retries → attemptFails (outcome j) = true) →
      post_data retries outcome =
        (.retriesExceeded, (List.range retries).flatMap failTrace)) := by
  constructor
  · intro k st hk hfails ho hst
    have h := postDataGo_first_success outcome retries 0 k st hk
      (by intro j hj; simpa using hfails j hj) (by simpa using ho) hst
    simpa [post_data] using h
  · intro hfails
    have h := postDataGo_all_fail outcome retries 0
      (by intro j hj; simpa using hfails j hj)
    simpa [post_data] using h

/-- C2 witness: the two spec scenarios.  With retries=3 and sink responses
500, 500, 200 the call returns success after exactly 3 attempts; with
retries=2 and the sink always returning 500 it raises after exactly 2
attempts, disconnecting and sleeping after each failure. -/
theorem c2_witness :
    post_data 3 c2SinkA =
      (.success 2 200,
        [.attempt 0, .disconnect, .sleepRetryDelay,
         .attempt 1, .disconnect, .sleepRetryDelay, .attempt 2]) ∧
    post_data 2 c2SinkB =
      (.retriesExceeded,
        [.attempt 0, .disconnect, .sleepRetryDelay,
         .attempt 1, .disconnect, .sleepRetryDelay]) := by
  constructor
  · have h := (c2_post_data_first_success_or_exhaust 3 c2SinkA).1 2 200
      (by omega) (by decide) (by decide) (by decide)
    rw [h]
    rfl
  · have h := (c2_post_data_first_success_or_exhaust 2 c2SinkB).2 (by decide)
    rw [h]
    rfl

/-- C2 counterexample to the claim as stated: with retries=1 and the sink
responding 301 (not a 2xx), `post_data` nevertheless returns successfully at
that attempt, because `raise_for_status` only raises for 4xx/5xx; the claim
as stated would require all attempts to count as failures and a terminal
error to be raised. -/
theorem c2_counterexample :
    (post_data 1 (fun _ => AttemptOutcome.resp 301)).1 = .success 0 301 ∧
    ¬ (200 ≤ 301 ∧ 301 < 300) := by
  constructor
  · rfl
  · omega

/-! ## Secret-set theorems -/

/-- C9: after every completed call to `update_secrets` on a constructed
`SecretFormatter` (one whose `restricted_stop_words` is `{'' , replacer}`),
whatever the merged source, the secret set contains neither the empty string
nor the replacement token. -/
theorem c9_update_secrets_invariant (f : PyFormatter) (repl : String)
    (src : SecretsSource) (g : PyFormatter)
    (hstops : f.restricted_stop_words = some {"", repl})
    (hupd : update_secrets f (some src) = .ok g) :
    "" ∉ g.secrets ∧ repl ∉ g.secrets := by
  unfold update_secrets censorStopWords at hupd
  simp only [hstops] at hupd
  simp only [Except.ok.injEq] at hupd
  subst hupd
  simp [Finset.mem_sdiff]

/-- C9 witness: a constructed formatter with replacement token `"[HIDDEN]"`
merging the string collection `["token1", "", "[HIDDEN]"]`. -/
theorem c9_witness :
    "" ∉ (PyFormatter.mk ({"token1"} : Finset String)
        (some {"", "[HIDDEN]"})).secrets ∧
    "[HIDDEN]" ∉ (PyFormatter.mk ({"token1"} : Finset String)
        (some {"", "[HIDDEN]"})).secrets :=
  c9_update_secrets_invariant
    (PyFormatter.mk ∅ (some {"", "[HIDDEN]"})) "[HIDDEN]"
    (.strings ["token1", "", "[HIDDEN]"])
    (PyFormatter.mk ({"token1"} : Finset String) (some {"", "[HIDDEN]"}))
    rfl rfl

/-- C10: constructing a `SecretFormatter` with a non-`None` secrets argument
raises `AttributeError`, because `update_secrets` reaches
`__censor_stop_words` (which reads `restricted_stop_words`) before that
attribute has been assigned; construction with `secrets=None` succeeds. -/
theorem c10_init_attribute_error (src : SecretsSource) (repl : String) :
    secretFormatterInit (some src) repl = .error .attributeError ∧
    secretFormatterInit none repl =
      .ok (PyFormatter.mk ∅ (some ({"", repl} : Finset String))) := by
  constructor
  · rfl
  · rfl

/-! ## `init` secret-migration theorems -/

theorem mem_initMergeSecrets_foldl (replacer s : String) :
    ∀ (l : List (Option (Finset String))) (acc : Finset String),
      s ≠ "" → s ≠ replacer →
      (s ∈ acc ∨ ∃ hs, some hs ∈ l ∧ s ∈ hs) →
      s ∈ l.foldl
        (fun acc h => (acc ∪ h.getD ∅) \ ({"", replacer} : Finset String)) acc
  | [], acc, _, _, hmem => by
    simp only [List.foldl_nil]
    rcases hmem with h | ⟨hs, hin, _⟩
    · exact h
    · simp at hin
  | h :: t, acc, h1, h2, hmem => by
    simp only [List.foldl_cons]
    apply mem_initMergeSecrets_foldl replacer s t _ h1 h2
    rcases hmem with hacc | ⟨hs, hin, hsmem⟩
    · left
      simp only [Finset.mem_sdiff, Finset.mem_union, Finset.mem_insert,
        Finset.mem_singleton]
      exact ⟨Or.inl hacc, by tauto⟩
    · rcases List.mem_cons.mp hin with heq | htail
      · left
        simp only [Finset.mem_sdiff, Finset.mem_union, Finset.mem_insert,
          Finset.mem_singleton]
        refine ⟨Or.inr ?_, by tauto⟩
        rw [← heq]
        exact hsmem
      · right
        exact ⟨hs, htail, hsmem⟩

/-- C6 (amended): a secret `s` registered with the previous formatter (hence
present in the secret set of some handler still installed on the root logger)
survives `init(force=True)` with a new configuration, provided `s` is not the
new configuration's replacement token (and not the empty string, which no
registered secret is): the newly built formatter's secret set contains `s`. -/
theorem c6_secrets_survive_forced_reinit (alreadyInit : Bool)
    (replacer s : String) (rootHandlers : List (Option (Finset String)))
    (hs : Finset String) (hh : some hs ∈ rootHandlers) (hsin : s ∈ hs)
    (h1 : s ≠ "") (h2 : s ≠ replacer) :
    initNewFormatterSecrets alreadyInit true replacer rootHandlers
      = some (initMergeSecrets replacer rootHandlers) ∧
    s ∈ initMergeSecrets replacer rootHandlers := by
  constructor
  · simp [initNewFormatterSecrets]
  · exact mem_initMergeSecrets_foldl replacer s rootHandlers ∅ h1 h2
      (Or.inr ⟨hs, hh, hsin⟩)

/-- C6 witness: secret `"token1"` registered with the old formatter (attached
to the one root handler) survives a forced reinitialization whose new
formatter uses replacement token `"[HIDDEN]"`. -/
theorem c6_witness :
    initNewFormatterSecrets true true "[HIDDEN]" [some {"token1"}]
      = some (initMergeSecrets "[HIDDEN]" [some {"token1"}]) ∧
    "token1" ∈ initMergeSecrets "[HIDDEN]" [some {"token1"}] :=
  c6_secrets_survive_forced_reinit true "[HIDDEN]" "token1"
    [some {"token1"}] {"token1"} (by decide) (by decide) (by decide) (by decide)

/-- C6 counterexample to the claim as stated: the secret `"tok"` is registered
with the previous formatter (still attached to the root handler), but the new
configuration's formatter uses `"tok"` as its replacement token, so the
stop-word purge removes it: the new formatter's secret set is empty and does
not contain `"tok"`. -/
theorem c6_counterexample :
    "tok" ∈ ({"tok"} : Finset String) ∧
    initNewFormatterSecrets true true "tok" [some {"tok"}]
      = some (∅ : Finset String) := by
  constructor
  · decide
  · decide

/-! ## Label-merge theorem (C3) -/

/-- C3 evidence (the claim is right and the code is wrong): `emit_line` with
additional labels mutates the emitter's default label map — starting from an
empty default map, one call with `additional_labels = {"level": "INFO"}`
leaves `default_labels = {"level": "INFO"}` — and the stale label leaks into
a subsequent call made with no additional labels at all; the pub/sub
emitter's `emit` mutates its default map the same way. -/
theorem c3_default_labels_mutated :
    (lokiEmitLine [] 0 "line one" (some [("level", "INFO")])).1
      = [("level", "INFO")] ∧
    ([("level", "INFO")] : List (String × String)) ≠ [] ∧
    (lokiEmitLine (lokiEmitLine [] 0 "line one"
        (some [("level", "INFO")])).1 1 "line two" none).2.stream
      = [("level", "INFO")] ∧
    (eventNodeEmit [] "line one" 0 (some [("level", "INFO")])).1
      = [("level", "INFO")] := by
  refine ⟨rfl, by decide, rfl, rfl⟩

/-! ## Buffered-handler drain lemmas -/

theorem lokiDrain_all_ok (fmt : LogRecord → Option String) :
    ∀ (buf : List LogRecord) (acc : List (Int × String)),
      (∀ r ∈ buf, (fmt r).isSome) →
      (lokiDrain fmt buf acc).2 = ([], true)
  | [], acc, _ => rfl
  | r :: rest, acc, h => by
    rcases Option.isSome_iff_exists.mp (h r (by simp)) with ⟨d, hd⟩
    rw [lokiDrain, hd]
    exact lokiDrain_all_ok fmt rest _ (fun x hx => h x (by simp [hx]))

theorem lokiDrain_stops_at_fail (fmt : LogRecord → Option String) (bad : LogRecord)
    (hbad : fmt bad = none) (post : List LogRecord) :
    ∀ (pre : List LogRecord) (acc : List (Int × String)),
      (∀ r ∈ pre, (fmt r).isSome) →
      (lokiDrain fmt (pre ++ bad :: post) acc).2 = (post, false)
  | [], acc, _ => by
    rw [List.nil_append, lokiDrain, hbad]
  | r :: rest, acc, h => by
    rcases Option.isSome_iff_exists.mp (h r (by simp)) with ⟨d, hd⟩
    rw [List.cons_append, lokiDrain, hd]
    exact lokiDrain_stops_at_fail fmt bad hbad post rest _
      (fun x hx => h x (by simp [hx]))

theorem enDrain_all_ok (includeLevel includeLogger : Bool)
    (fmt : LogRecord → Option String) :
    ∀ (buf : List LogRecord) (acc : List ENRecord),
      (∀ r ∈ buf, (fmt r).isSome) →
      (enDrain includeLevel includeLogger fmt buf acc).2 = ([], true)
  | [], acc, _ => rfl
  | r :: rest, acc, h => by
    rcases Option.isSome_iff_exists.mp (h r (by simp)) with ⟨d, hd⟩
    rw [enDrain, hd]
    exact enDrain_all_ok includeLevel includeLogger fmt rest _
      (fun x hx => h x (by simp [hx]))

theorem enDrain_stops_at_fail (includeLevel includeLogger : Bool)
    (fmt : LogRecord → Option String) (bad : LogRecord)
    (hbad : fmt bad = none) (post : List LogRecord) :
    ∀ (pre : List LogRecord) (acc : List ENRecord),
      (∀ r ∈ pre, (fmt r).isSome) →
      (enDrain includeLevel includeLogger fmt (pre ++ bad :: post) acc).2
        = (post, false)
  | [], acc, _ => by
    rw [List.nil_append, enDrain, hbad]
  | r :: rest, acc, h => by
    rcases Option.isSome_iff_exists.mp (h r (by simp)) with ⟨d, hd⟩
    rw [List.cons_append, enDrain, hd]
    exact enDrain_stops_at_fail includeLevel includeLogger fmt bad hbad post rest _
      (fun x hx => h x (by simp [hx]))

/-! ## C4: failed transmission still advances `last_flush` and empties the
buffer -/

/-- C4: when every buffered record formats successfully but the emitter's
transmission raises, `flush` still sets `last_flush` to the current time,
still leaves the buffer empty, and the drained batch is neither re-enqueued
nor retransmitted (the emitter receives nothing), in both locked and unlocked
flush modes. -/
theorem c4_failed_transmit_flush (fmt : LogRecord → Option String)
    (flushLocked : Bool) (now lf : Int) (buf : List LogRecord)
    (em : List (List (Int × String))) (hne : buf ≠ [])
    (hok : ∀ r ∈ buf, (fmt r).isSome) :
    lokiFlush fmt flushLocked false now ⟨buf, lf, em⟩ = ⟨[], now, em⟩ := by
  unfold lokiFlush
  dsimp only
  rw [lokiDrain_all_ok fmt buf [] hok]
  simp

/-- C4 witness: two successfully formatting records, failing transmission,
locked mode. -/
theorem c4_witness :
    lokiFlush c5Fmt true false 77
        ⟨[⟨1, "INFO", "first"⟩, ⟨2, "INFO", "second"⟩], 3, []⟩
      = ⟨[], 77, []⟩ :=
  c4_failed_transmit_flush c5Fmt true 77 3
    [⟨1, "INFO", "first"⟩, ⟨2, "INFO", "second"⟩] [] (by decide) (by decide)

/-! ## C5: atomicity of the drain -/

/-- C5 counterexample to the claim as stated: with a two-record buffer whose
first record's formatting raises, `flush` pops the failing record but leaves
the second record in the buffer — a proper non-empty subset of the records
present at the start of the flush. -/
theorem c5_counterexample :
    (lokiFlush c5Fmt true true 5
        ⟨[⟨0, "INFO", "bad"⟩, ⟨0, "INFO", "ok"⟩], 0, []⟩).buffer
      = [⟨0, "INFO", "ok"⟩] ∧
    ([(⟨0, "INFO", "ok"⟩ : LogRecord)] : List LogRecord) ≠ [] ∧
    ([(⟨0, "INFO", "ok"⟩ : LogRecord)] : List LogRecord)
      ≠ [⟨0, "INFO", "bad"⟩, ⟨0, "INFO", "ok"⟩] := by
  refine ⟨rfl, by decide, by decide⟩

/-- C5 (amended): when every buffered record formats successfully, a flush of
either buffered handler drains the whole buffer; but when formatting one
record raises, the flush removes the successfully formatted records and the
failing record and leaves every later record in the buffer — so a flush can
leave a proper non-empty subset of the records it started with. -/
theorem c5_flush_drain_behaviour (fmt : LogRecord → Option String)
    (flushLocked transmitOk : Bool) (now lf : Int)
    (emJ : List (List (Int × String))) (emE : List (List ENRecord))
    (includeLevel includeLogger : Bool) (pre post : List LogRecord)
    (bad : LogRecord) (full : List LogRecord)
    (hpre : ∀ r ∈ pre, (fmt r).isSome) (hbad : fmt bad = none)
    (hfull : ∀ r ∈ full, (fmt r).isSome) :
    (lokiFlush fmt flushLocked transmitOk now
        ⟨pre ++ bad :: post, lf, emJ⟩).buffer = post ∧
    (lokiFlush fmt flushLocked transmitOk now ⟨full, lf, emJ⟩).buffer = [] ∧
    (enFlush includeLevel includeLogger fmt flushLocked transmitOk now
        ⟨pre ++ bad :: post, lf, emE⟩).buffer = post ∧
    (enFlush includeLevel includeLogger fmt flushLocked transmitOk now
        ⟨full, lf, emE⟩).buffer = [] := by
  refine ⟨?_, ?_, ?_, ?_⟩
  · unfold lokiFlush
    dsimp only
    rw [lokiDrain_stops_at_fail fmt bad hbad post pre [] hpre]
    by_cases h : (!flushLocked && !(lokiDrain fmt (pre ++ bad :: post) []).1.isEmpty
        && transmitOk) = true <;> simp [h]
  · unfold lokiFlush
    dsimp only
    rw [lokiDrain_all_ok fmt full [] hfull]
    by_cases h : (!flushLocked && !(lokiDrain fmt full []).1.isEmpty
        && transmitOk) = true <;> simp [h]
  · unfold enFlush
    dsimp only
    rw [enDrain_stops_at_fail includeLevel includeLogger fmt bad hbad post pre [] hpre]
    by_cases h : (!flushLocked
        && !(enDrain includeLevel includeLogger fmt (pre ++ bad :: post) []).1.isEmpty
        && transmitOk) = true <;> simp [h]
  · unfold enFlush
    dsimp only
    rw [enDrain_all_ok includeLevel includeLogger fmt full [] hfull]
    by_cases h : (!flushLocked
        && !(enDrain includeLevel includeLogger fmt full []).1.isEmpty
        && transmitOk) = true <;> simp [h]

/-- C5 witness: a buffer `[good, bad, good2]` whose middle record fails to
format leaves exactly `[good2]`, and a fully formattable buffer drains to
empty, for both handlers. -/
theorem c5_witness :
    (lokiFlush c5Fmt true true 9
        ⟨[⟨1, "INFO", "g1"⟩] ++ ⟨2, "INFO", "bad"⟩ :: [⟨3, "INFO", "g2"⟩],
         0, []⟩).buffer = [⟨3, "INFO", "g2"⟩] ∧
    (lokiFlush c5Fmt true true 9 ⟨[⟨1, "INFO", "g1"⟩], 0, []⟩).buffer = [] ∧
    (enFlush true true c5Fmt true true 9
        ⟨[⟨1, "INFO", "g1"⟩] ++ ⟨2, "INFO", "bad"⟩ :: [⟨3, "INFO", "g2"⟩],
         0, []⟩).buffer = [⟨3, "INFO", "g2"⟩] ∧
    (enFlush true true c5Fmt true true 9
        ⟨[⟨1, "INFO", "g1"⟩], 0, []⟩).buffer = [] :=
  c5_flush_drain_behaviour c5Fmt true true 9 0 [] [] true true
    [⟨1, "INFO", "g1"⟩] [⟨3, "INFO", "g2"⟩] ⟨2, "INFO", "bad"⟩
    [⟨1, "INFO", "g1"⟩] (by decide) (by decide) (by decide)

/-! ## C1: capacity-triggered flush -/

/-- C1: with buffer capacity 2 and flush interval 1000, starting from an
empty buffer whose `last_flush` is recent enough that the time trigger is not
due at either enqueue, enqueueing record A causes no flush (the buffer then
holds A, nothing is emitted), and enqueueing record B triggers a flush on
which the emitter receives exactly one batch `[A, B]`, in that order. -/
theorem c1_capacity_two_flush (fmt : LogRecord → Option String)
    (rA rB : LogRecord) (a b : String) (t0 tA tB : Int)
    (em : List (List (Int × String)))
    (hA : fmt rA = some a) (hB : fmt rB = some b)
    (hta : tA - t0 < 1000) (htb : tB - t0 < 1000) :
    lokiHandlerEmit fmt true true 2 1000 tA rA ⟨[], t0, em⟩
      = ⟨[rA], t0, em⟩ ∧
    lokiHandlerEmit fmt true true 2 1000 tB rB ⟨[rA], t0, em⟩
      = ⟨[], tB, em ++ [[(rA.created * 1000000000, a),
                         (rB.created * 1000000000, b)]]⟩ := by
  constructor
  · have hflush : lokiShouldFlush 2 1000 tA ⟨[rA], t0, em⟩ = false := by
      simp [lokiShouldFlush]
      omega
    simp [lokiHandlerEmit, hflush]
  · have hflush : lokiShouldFlush 2 1000 tB ⟨[rA, rB], t0, em⟩ = true := by
      simp [lokiShouldFlush]
    simp only [lokiHandlerEmit, List.cons_append, List.nil_append, hflush,
      if_true]
    unfold lokiFlush
    simp [lokiDrain, hA, hB]

/-- C1 witness: capacity 2, interval 1000, `last_flush = 100`, record A
enqueued at time 101 and record B at time 102. -/
theorem c1_witness :
    lokiHandlerEmit c5Fmt true true 2 1000 101 ⟨7, "INFO", "A"⟩ ⟨[], 100, []⟩
      = ⟨[⟨7, "INFO", "A"⟩], 100, []⟩ ∧
    lokiHandlerEmit c5Fmt true true 2 1000 102 ⟨8, "INFO", "B"⟩
        ⟨[⟨7, "INFO", "A"⟩], 100, []⟩
      = ⟨[], 102, [[(7000000000, "A"), (8000000000, "B")]]⟩ := by
  have h := c1_capacity_two_flush c5Fmt ⟨7, "INFO", "A"⟩ ⟨8, "INFO", "B"⟩
    "A" "B" 100 101 102 [] (by decide) (by decide) (by decide) (by decide)
  exact h

/-! ## List scanning helpers -/

theorem isPrefixOf_append_self : ∀ (l t : List Char), l.isPrefixOf (l ++ t) = true
  | [], t => by cases t <;> rfl
  | a :: as, t => by
    simp [List.isPrefixOf, isPrefixOf_append_self as t]

theorem takeWhile_append_all (p : Char → Bool) :
    ∀ (A B : List Char), (∀ a ∈ A, p a = true) →
      (∀ b, B.head? = some b → p b = false) →
      (A ++ B).takeWhile p = A ∧ (A ++ B).dropWhile p = B
  | [], B, _, hB => by
    cases B with
    | nil => exact ⟨rfl, rfl⟩
    | cons b bs =>
      simp [List.takeWhile_cons, List.dropWhile_cons, hB b rfl]
  | a :: A, B, hA, hB => by
    have hpa : p a = true := hA a (by simp)
    have ih := takeWhile_append_all p A B (fun x hx => hA x (by simp [hx])) hB
    simp [List.takeWhile_cons, List.dropWhile_cons, hpa, ih.1, ih.2]

theorem takeWhile_all (p : Char → Bool) (A : List Char)
    (hA : ∀ a ∈ A, p a = true) : A.takeWhile p = A := by
  have h := (takeWhile_append_all p A [] hA (by intro b hb; cases hb)).1
  simpa using h

/-! ## Base64-filter lemmas -/

theorem b64SubGo_nil (maxChars : Nat) : ∀ fuel, b64SubGo maxChars fuel [] = []
  | 0 => rfl
  | _ + 1 => rfl

theorem b64SubGo_match_step (maxChars fuel : Nat) (c : Char) (rest : List Char)
    (L : Nat) (h : matchB64At (c :: rest) = some L) :
    b64SubGo maxChars (fuel + 1) (c :: rest)
      = sanitizeB64Url maxChars ((c :: rest).take L)
        ++ b64SubGo maxChars fuel ((c :: rest).drop L) := by
  conv_lhs => rw [b64SubGo]
  rw [h]

theorem b64SubGo_none_step (maxChars fuel : Nat) (c : Char) (rest : List Char)
    (h : matchB64At (c :: rest) = none) :
    b64SubGo maxChars (fuel + 1) (c :: rest)
      = c :: b64SubGo maxChars fuel rest := by
  conv_lhs => rw [b64SubGo]
  rw [h]

theorem matchB64At_pos (l : List Char) (L : Nat) (h : matchB64At l = some L) :
    1 ≤ L := by
  unfold matchB64At at h
  split at h
  · dsimp only at h
    split at h
    · simp at h
    · split at h
      · split at h
        · simp at h
        · simp only [Option.some.injEq] at h
          omega
      · simp at h
  · simp at h

theorem matchB64At_none_of_no_lit (l : List Char)
    (h : ("data:image/".data).isPrefixOf l = false) : matchB64At l = none := by
  unfold matchB64At
  rw [if_neg (by simp [h])]

/-- The scan result does not depend on the fuel, as long as the fuel is at
least the length of the text. -/
theorem b64SubGo_fuel_irrel (maxChars : Nat) :
    ∀ (n : Nat) (l : List Char) (f1 f2 : Nat),
      l.length ≤ n → l.length ≤ f1 → l.length ≤ f2 →
      b64SubGo maxChars f1 l = b64SubGo maxChars f2 l := by
  intro n
  induction n with
  | zero =>
    intro l f1 f2 hn _ _
    have : l = [] := List.length_eq_zero.mp (Nat.le_zero.mp hn)
    subst this
    rw [b64SubGo_nil, b64SubGo_nil]
  | succ n ih =>
    intro l f1 f2 hn h1 h2
    cases l with
    | nil => rw [b64SubGo_nil, b64SubGo_nil]
    | cons c rest =>
      have hn' : rest.length + 1 ≤ n + 1 := by simpa using hn
      cases f1 with
      | zero => simp [List.length_cons] at h1
      | succ g1 =>
      cases f2 with
      | zero => simp [List.length_cons] at h2
      | succ g2 =>
      have h1' : rest.length + 1 ≤ g1 + 1 := by simpa using h1
      have h2' : rest.length + 1 ≤ g2 + 1 := by simpa using h2
      cases hm : matchB64At (c :: rest) with
      | some L =>
        have hL : 1 ≤ L := matchB64At_pos _ _ hm
        rw [b64SubGo_match_step maxChars g1 c rest L hm,
          b64SubGo_match_step maxChars g2 c rest L hm]
        congr 1
        have hdl : ((c :: rest).drop L).length = rest.length + 1 - L := by
          simp [List.length_drop]
        exact ih ((c :: rest).drop L) g1 g2 (by rw [hdl]; omega)
          (by rw [hdl]; omega) (by rw [hdl]; omega)
      | none =>
        rw [b64SubGo_none_step maxChars g1 c rest hm,
          b64SubGo_none_step maxChars g2 c rest hm]
        congr 1
        exact ih rest g1 g2 (by omega) (by omega) (by omega)

theorem b64SubGo_no_match_walk (maxChars : Nat) :
    ∀ (pre : List Char) (fuel : Nat) (tail : List Char),
      (∀ i, i < pre.length → matchB64At ((pre ++ tail).drop i) = none) →
      pre.length + tail.length ≤ fuel →
      b64SubGo maxChars fuel (pre ++ tail)
        = pre ++ b64SubGo maxChars (fuel - pre.length) tail
  | [], fuel, tail, _, _ => by simp
  | c :: pre', fuel, tail, h, hfuel => by
    cases fuel with
    | zero => simp [List.length_cons] at hfuel
    | succ f =>
      have h0 : matchB64At (c :: (pre' ++ tail)) = none := by
        have := h 0 (by simp)
        simpa using this
      show b64SubGo maxChars (f + 1) (c :: (pre' ++ tail)) = _
      rw [b64SubGo_none_step maxChars f c (pre' ++ tail) h0]
      rw [b64SubGo_no_match_walk maxChars pre' f tail
        (fun i hi => by
          have := h (i + 1) (by simpa using Nat.succ_lt_succ hi)
          simpa [List.drop_succ_cons] using this)
        (by simp only [List.length_cons] at hfuel; omega)]
      simp only [List.cons_append, List.length_cons, Nat.succ_sub_succ]

/-- Scanning a text whose prefix admits no match leaves that prefix
unchanged and continues on the remainder. -/
theorem b64Sub_no_match_walk (maxChars : Nat) (pre tail : List Char)
    (h : ∀ i, i < pre.length → matchB64At ((pre ++ tail).drop i) = none) :
    b64Sub maxChars (pre ++ tail) = pre ++ b64Sub maxChars tail := by
  unfold b64Sub
  rw [b64SubGo_no_match_walk maxChars pre (pre ++ tail).length tail h
    (by simp [List.length_append])]
  have hfu : (pre ++ tail).length - pre.length = tail.length := by
    simp [List.length_append]
  rw [hfu]

theorem b64Sub_match_at_head (maxChars : Nat) (l : List Char) (L : Nat)
    (hml : matchB64At l = some L) :
    b64Sub maxChars l
      = sanitizeB64Url maxChars (l.take L)
        ++ b64SubGo maxChars (l.length - 1) (l.drop L) := by
  have hne : l ≠ [] := by
    intro hcon
    subst hcon
    have : matchB64At ([] : List Char) = none := rfl
    rw [this] at hml
    cases hml
  obtain ⟨c, rest, rfl⟩ := List.exists_cons_of_ne_nil hne
  show b64SubGo maxChars (c :: rest).length (c :: rest) = _
  rw [List.length_cons, Nat.add_sub_cancel]
  exact b64SubGo_match_step maxChars rest.length c rest L hml

/-- The pattern matches at the head of the URI followed by arbitrary text,
provided the first character after the payload (if any) is neither a base64
character nor `=`; the match covers exactly the URI. -/
theorem matchB64At_uri_post (st b pads post : List Char) (hst : st ≠ [])
    (hstc : ∀ c ∈ st, (c != ';') = true)
    (hb : ∀ c ∈ b, isB64Char c = true)
    (hpads : ∀ c ∈ pads, (c == '=') = true)
    (hpost : ∀ x, post.head? = some x → isB64Char x = false ∧ (x == '=') = false)
    (h20 : 20 ≤ b.length) :
    matchB64At
        ("data:image/".data ++ (st ++ (";base64,".data ++ (b ++ (pads ++ post)))))
      = some (11 + st.length + 8 + b.length + pads.length) := by
  unfold matchB64At
  rw [if_pos (isPrefixOf_append_self "data:image/".data
    (st ++ (";base64,".data ++ (b ++ (pads ++ post)))))]
  have hdrop11 :
      ("data:image/".data
        ++ (st ++ (";base64,".data ++ (b ++ (pads ++ post))))).drop 11
        = st ++ (";base64,".data ++ (b ++ (pads ++ post))) := by
    have h11 : ("data:image/".data).length = 11 := rfl
    rw [← h11, List.drop_left]
  rw [hdrop11]
  dsimp only
  have htw :
      (st ++ (";base64,".data ++ (b ++ (pads ++ post)))).takeWhile
          (fun c => c != ';')
        = st := by
    refine (takeWhile_append_all _ st _ hstc ?_).1
    intro x hx
    simp at hx
    subst hx
    rfl
  rw [htw]
  rw [if_neg (by simpa [List.isEmpty_iff] using hst)]
  have hdropst :
      (st ++ (";base64,".data ++ (b ++ (pads ++ post)))).drop st.length
        = ";base64,".data ++ (b ++ (pads ++ post)) := List.drop_left _ _
  rw [hdropst]
  rw [if_pos (isPrefixOf_append_self ";base64,".data (b ++ (pads ++ post)))]
  have hdrop8 : ((";base64,".data ++ (b ++ (pads ++ post))) : List Char).drop 8
      = b ++ (pads ++ post) := by
    have h8 : (";base64,".data).length = 8 := rfl
    rw [← h8, List.drop_left]
  rw [hdrop8]
  have hrun : (b ++ (pads ++ post)).takeWhile isB64Char = b := by
    refine (takeWhile_append_all _ b _ hb ?_).1
    intro x hx
    cases pads with
    | nil =>
      simp only [List.nil_append] at hx
      exact (hpost x hx).1
    | cons p ps =>
      have hpx : p = x := by simpa using hx
      have hpe : p = '=' := eq_of_beq (hpads p (by simp))
      rw [← hpx, hpe]
      rfl
  rw [hrun]
  rw [if_neg (by omega)]
  have hdropb : (b ++ (pads ++ post)).drop b.length = pads ++ post :=
    List.drop_left _ _
  rw [hdropb]
  have htwp : (pads ++ post).takeWhile (fun c => c == '=') = pads := by
    refine (takeWhile_append_all _ pads post hpads ?_).1
    intro x hx
    exact (hpost x hx).2
  rw [htwp]

theorem splitOnB64_append :
    ∀ (A B : List Char), (∀ a ∈ A, (a != ';') = true) →
      splitOnB64 (A ++ (";base64,".data ++ B)) = some (A, B)
  | [], B, _ => by
    show splitOnB64 (';' :: ("base64,".data ++ B)) = some ([], B)
    rw [splitOnB64]
    rw [show ((";base64,".data).isPrefixOf
        (';' :: ("base64,".data ++ B))) = true from isPrefixOf_append_self _ _]
    simp only [if_true]
    have h8 : ((';' :: ("base64,".data ++ B)) : List Char).drop 8 = B := by
      have : ((";base64,".data : List Char) ++ B).drop 8 = B := by
        have h8' : (";base64,".data).length = 8 := rfl
        rw [← h8', List.drop_left]
      exact this
    rw [h8]
  | a :: A, B, hA => by
    rw [List.cons_append, splitOnB64]
    have hne : ((";base64,".data).isPrefixOf
        (a :: (A ++ (";base64,".data ++ B)))) = false := by
      have ha : (a != ';') = true := hA a (by simp)
      have ha' : (';' == a) = false := by
        rcases Bool.eq_false_or_eq_true (';' == a) with h | h
        · exfalso
          have : ';' = a := eq_of_beq h
          subst this
          simp at ha
        · exact h
      show ((';' == a) && _) = false
      rw [ha']
      rfl
    rw [hne]
    simp only [Bool.false_eq_true, if_false]
    rw [splitOnB64_append A B (fun x hx => hA x (by simp [hx]))]

/-! ## C7: base64 truncation -/

/-- C7 counterexample to the claim as stated: with `max_base64_chars = 5` and
a payload of length 10 (> 5), the filter leaves the message unchanged at
DEBUG level, because the compiled pattern requires at least 20 base64
characters before it matches at all; the claim as stated would require the
payload to be truncated to its first 5 characters plus the marker. -/
theorem c7_counterexample :
    base64FilterRecord 5 10 ("data:image/png;base64,ABCDEFGHIJ".data)
      = (true, "data:image/png;base64,ABCDEFGHIJ".data) ∧
    (5 : Nat) < 10 ∧
    "data:image/png;base64,ABCDEFGHIJ".data
      ≠ "data:image/png;base64,ABCDE...[base64 truncated]".data := by
  refine ⟨by decide, by decide, by decide⟩

/-- C7 (amended): for a record at DEBUG severity or above whose message
contains a data URI `data:image/<subtype>;base64,<payload>` — where the
URI's `data:image/` is the first occurrence of that literal in the message,
and the payload (base64 characters `b`, then `=` padding `pads`) is
delimited on the right by the end of the message or by a character that is
neither a base64 character nor `=` — and provided the payload has at least
20 base64 characters (the compiled pattern's hard minimum; the
counterexample shows a shorter payload left unmodified although it exceeds
`max_chars`): if the payload length `L` exceeds `max_chars` the payload is
replaced by exactly its first `max_chars` characters followed by the
truncation marker, and if `L ≤ max_chars` the URI is left completely
unchanged; the text before the URI is preserved and the scan continues on
the text after it. -/
theorem c7_base64_truncation (maxChars : Nat) (lvl : Int)
    (pre st b pads post : List Char)
    (hpre : ∀ i, i < pre.length →
      ("data:image/".data).isPrefixOf
        ((pre ++ "data:image/".data ++ st ++ ";base64,".data ++ b ++ pads
          ++ post).drop i) = false)
    (hst : st ≠ []) (hstc : ∀ c ∈ st, (c != ';') = true)
    (hb : ∀ c ∈ b, isB64Char c = true)
    (hpads : ∀ c ∈ pads, (c == '=') = true)
    (hpost : (post.head?.all fun x => !isB64Char x && !(x == '=')) = true)
    (h20 : 20 ≤ b.length) (hlvl : 10 ≤ lvl) :
    base64FilterRecord maxChars lvl
        (pre ++ "data:image/".data ++ st ++ ";base64,".data ++ b ++ pads ++ post)
      = (true,
        (pre ++ (if maxChars < b.length + pads.length then
          "data:image/".data ++ st ++ ";base64,".data
            ++ (b ++ pads).take maxChars ++ b64Marker
        else
          "data:image/".data ++ st ++ ";base64,".data ++ b ++ pads))
        ++ b64Sub maxChars post) := by
  have hpostP : ∀ x, post.head? = some x →
      isB64Char x = false ∧ (x == '=') = false := by
    intro x hx
    rw [hx] at hpost
    simp only [Option.all_some, Bool.and_eq_true, Bool.not_eq_true'] at hpost
    exact hpost
  unfold base64FilterRecord
  rw [if_neg (by omega)]
  have hassoc :
      pre ++ "data:image/".data ++ st ++ ";base64,".data ++ b ++ pads ++ post
        = pre ++ ("data:image/".data
            ++ (st ++ (";base64,".data ++ (b ++ (pads ++ post))))) := by
    simp [List.append_assoc]
  rw [hassoc] at hpre ⊢
  rw [b64Sub_no_match_walk maxChars pre
    ("data:image/".data ++ (st ++ (";base64,".data ++ (b ++ (pads ++ post)))))
    (fun i hi => matchB64At_none_of_no_lit _ (hpre i hi))]
  have hml := matchB64At_uri_post st b pads post hst hstc hb hpads hpostP h20
  rw [b64Sub_match_at_head maxChars _ _ hml]
  have h11 : ("data:image/".data).length = 11 := rfl
  have h8 : (";base64,".data).length = 8 := rfl
  have hsplit2 :
      "data:image/".data ++ (st ++ (";base64,".data ++ (b ++ (pads ++ post))))
        = ("data:image/".data ++ (st ++ (";base64,".data ++ (b ++ pads))))
          ++ post := by
    simp [List.append_assoc]
  have hL : 11 + st.length + 8 + b.length + pads.length
      = ("data:image/".data
          ++ (st ++ (";base64,".data ++ (b ++ pads)))).length := by
    simp only [List.length_append, h11, h8]
    omega
  have htake :
      ("data:image/".data
        ++ (st ++ (";base64,".data ++ (b ++ (pads ++ post))))).take
          (11 + st.length + 8 + b.length + pads.length)
        = "data:image/".data ++ (st ++ (";base64,".data ++ (b ++ pads))) := by
    rw [hsplit2, hL, List.take_left]
  have hdrop2 :
      ("data:image/".data
        ++ (st ++ (";base64,".data ++ (b ++ (pads ++ post))))).drop
          (11 + st.length + 8 + b.length + pads.length)
        = post := by
    rw [hsplit2, hL, List.drop_left]
  rw [htake, hdrop2]
  have hsan : sanitizeB64Url maxChars
      ("data:image/".data ++ (st ++ (";base64,".data ++ (b ++ pads))))
      = (if maxChars < b.length + pads.length then
          "data:image/".data ++ st ++ ";base64,".data
            ++ (b ++ pads).take maxChars ++ b64Marker
        else
          "data:image/".data ++ (st ++ (";base64,".data ++ (b ++ pads)))) := by
    unfold sanitizeB64Url
    have hlit : ∀ a ∈ ("data:image/".data : List Char), (a != ';') = true := by
      decide
    have hchars : ∀ a ∈ ("data:image/".data ++ st), (a != ';') = true := by
      intro a ha
      rcases List.mem_append.mp ha with h | h
      · exact hlit a h
      · exact hstc a h
    have hsb := splitOnB64_append ("data:image/".data ++ st) (b ++ pads) hchars
    have hsplitB : splitOnB64
        ("data:image/".data ++ (st ++ (";base64,".data ++ (b ++ pads))))
        = some ("data:image/".data ++ st, b ++ pads) := by
      have harg : ("data:image/".data ++ st) ++ (";base64,".data ++ (b ++ pads))
          = "data:image/".data ++ (st ++ (";base64,".data ++ (b ++ pads))) := by
        simp [List.append_assoc]
      rw [← harg]
      exact hsb
    rw [hsplitB]
    dsimp only
    rw [List.length_append]
  rw [hsan]
  have hulen :
      ("data:image/".data
        ++ (st ++ (";base64,".data ++ (b ++ (pads ++ post))))).length
        = 11 + (st.length + (8 + (b.length + (pads.length + post.length)))) := by
    simp only [List.length_append, h11, h8]
  have hfi := b64SubGo_fuel_irrel maxChars post.length post
    (("data:image/".data
      ++ (st ++ (";base64,".data ++ (b ++ (pads ++ post))))).length - 1)
    post.length le_rfl (by rw [hulen]; omega) le_rfl
  rw [hfi]
  have hb64 : b64SubGo maxChars post.length post = b64Sub maxChars post := rfl
  rw [hb64]
  simp [List.append_assoc]

/-- C7 witness: inside the message `log: <URI> tail`, with subtype `png` and
a 25-character base64 payload plus one `=` pad (L = 26): with
`max_chars = 20` the payload is truncated to its first 20 characters plus
the marker, and with `max_chars = 30` the URI is unchanged; the surrounding
text is preserved. -/
theorem c7_witness :
    base64FilterRecord 20 10
        ("log: ".data ++ "data:image/".data ++ "png".data ++ ";base64,".data
          ++ "ABCDEFGHIJKLMNOPQRSTUVWXY".data ++ "=".data ++ " tail".data)
      = (true,
        ("log: ".data ++ (if 20 < "ABCDEFGHIJKLMNOPQRSTUVWXY".data.length
            + "=".data.length then
          "data:image/".data ++ "png".data ++ ";base64,".data
            ++ ("ABCDEFGHIJKLMNOPQRSTUVWXY".data ++ "=".data).take 20
            ++ b64Marker
        else
          "data:image/".data ++ "png".data ++ ";base64,".data
            ++ "ABCDEFGHIJKLMNOPQRSTUVWXY".data ++ "=".data))
        ++ b64Sub 20 " tail".data) ∧
    base64FilterRecord 30 10
        ("log: ".data ++ "data:image/".data ++ "png".data ++ ";base64,".data
          ++ "ABCDEFGHIJKLMNOPQRSTUVWXY".data ++ "=".data ++ " tail".data)
      = (true,
        ("log: ".data ++ (if 30 < "ABCDEFGHIJKLMNOPQRSTUVWXY".data.length
            + "=".data.length then
          "data:image/".data ++ "png".data ++ ";base64,".data
            ++ ("ABCDEFGHIJKLMNOPQRSTUVWXY".data ++ "=".data).take 30
            ++ b64Marker
        else
          "data:image/".data ++ "png".data ++ ";base64,".data
            ++ "ABCDEFGHIJKLMNOPQRSTUVWXY".data ++ "=".data))
        ++ b64Sub 30 " tail".data) :=
  ⟨c7_base64_truncation 20 10 "log: ".data "png".data
      "ABCDEFGHIJKLMNOPQRSTUVWXY".data "=".data " tail".data
      (by decide) (by decide) (by decide) (by decide) (by decide) (by decide)
      (by decide) (by decide),
   c7_base64_truncation 30 10 "log: ".data "png".data
      "ABCDEFGHIJKLMNOPQRSTUVWXY".data "=".data " tail".data
      (by decide) (by decide) (by decide) (by decide) (by decide) (by decide)
      (by decide) (by decide)⟩

/-! ## Word-boundary redaction lemmas -/

theorem subReGo_nil_text (wc : Char → Bool) (secrets : List (List Char)) (repl : List Char) :
    ∀ (fuel : Nat) (prev : Option Char), subReGo wc secrets repl fuel prev [] = []
  | 0, _ => rfl
  | _ + 1, _ => rfl

theorem redactSpecWords_nil (wc : Char → Bool) (secrets : List (List Char)) (repl : List Char) :
    ∀ fuel, redactSpecWords wc secrets repl fuel [] = []
  | 0 => rfl
  | _ + 1 => rfl

theorem head?_dropWhile_not (p : Char → Bool) :
    ∀ (l : List Char) (x : Char), (l.dropWhile p).head? = some x → p x = false
  | [], _, h => by cases h
  | a :: l, x, h => by
    by_cases hp : p a = true
    · rw [List.dropWhile_cons, if_pos hp] at h
      exact head?_dropWhile_not p l x h
    · rw [List.dropWhile_cons, if_neg hp] at h
      simp only [List.head?_cons, Option.some.injEq] at h
      subst h
      simpa using hp

theorem eq_take_of_isPrefixOf :
    ∀ (s t : List Char), s.isPrefixOf t = true → s = t.take s.length
  | [], _, _ => rfl
  | a :: s, [], h => by simp [List.isPrefixOf] at h
  | a :: s, b :: t, h => by
    simp only [List.isPrefixOf, Bool.and_eq_true] at h
    obtain ⟨hab, hs⟩ := h
    have hab' : a = b := eq_of_beq hab
    subst hab'
    simp [List.take_succ_cons, ← eq_take_of_isPrefixOf s t hs]

theorem firstMatch_word_prev (wc : Char → Bool) (secrets : List (List Char))
    (hsec : ∀ s ∈ secrets, s ≠ [] ∧ ∀ c ∈ s, wc c = true)
    (prev : Option Char) (hprev : optWord wc prev = true) (text : List Char) :
    firstMatch wc secrets prev text = none := by
  rw [firstMatch, List.find?_eq_none]
  intro s hs hok
  rcases hsec s hs with ⟨hne, hword⟩
  obtain ⟨h, s', rfl⟩ : ∃ h s', s = h :: s' := by
    cases s with
    | nil => exact absurd rfl hne
    | cons h s' => exact ⟨h, s', rfl⟩
  have hh : wc h = true := hword h (by simp)
  have hh2 : optWord wc (some h) = true := by simp [optWord, hh]
  simp [matchOk, bdryB, List.head?_cons, hprev, hh2] at hok

theorem firstMatch_nonword_head (wc : Char → Bool) (secrets : List (List Char))
    (hsec : ∀ s ∈ secrets, s ≠ [] ∧ ∀ c ∈ s, wc c = true)
    (prev : Option Char) (c : Char) (hc : wc c = false)
    (rest : List Char) :
    firstMatch wc secrets prev (c :: rest) = none := by
  rw [firstMatch, List.find?_eq_none]
  intro s hs hok
  rcases hsec s hs with ⟨hne, hword⟩
  obtain ⟨h, s', rfl⟩ : ∃ h s', s = h :: s' := by
    cases s with
    | nil => exact absurd rfl hne
    | cons h s' => exact ⟨h, s', rfl⟩
  have hh : wc h = true := hword h (by simp)
  have hhc : (h == c) = false := by
    rcases Bool.eq_false_or_eq_true (h == c) with ht | hf
    · exfalso
      have : h = c := eq_of_beq ht
      subst this
      rw [hh] at hc
      cases hc
    · exact hf
  simp [matchOk, List.isPrefixOf, hhc] at hok

theorem matchOk_eq_run (wc : Char → Bool) (s : List Char) (hne : s ≠ [])
    (hword : ∀ x ∈ s, wc x = true) (c : Char) (rest : List Char)
    (prev : Option Char) (hok : matchOk wc prev (c :: rest) s = true) :
    s = (c :: rest).takeWhile wc := by
  have hsplit : (c :: rest).takeWhile wc
      ++ (c :: rest).dropWhile wc = c :: rest :=
    List.takeWhile_append_dropWhile wc (c :: rest)
  simp only [matchOk, Bool.and_eq_true] at hok
  obtain ⟨⟨⟨_, hpre⟩, _⟩, hb2⟩ := hok
  have hstake : s = (c :: rest).take s.length := eq_take_of_isPrefixOf _ _ hpre
  have hrunword : ∀ x ∈ (c :: rest).takeWhile wc, wc x = true :=
    fun x hx => List.mem_takeWhile_imp hx
  by_cases hle : s.length ≤ ((c :: rest).takeWhile wc).length
  · -- s is a prefix of the word run
    have hs_take_run : s = ((c :: rest).takeWhile wc).take s.length := by
      conv_lhs => rw [hstake, ← hsplit]
      rw [List.take_append_eq_append_take,
        Nat.sub_eq_zero_of_le hle, List.take_zero, List.append_nil]
    rcases Nat.lt_or_ge s.length ((c :: rest).takeWhile wc).length
      with hlt | hge
    · -- proper prefix: the trailing boundary fails
      exfalso
      have hz : ∃ z, s.getLast? = some z ∧ z ∈ s := by
        refine ⟨s.getLast hne, List.getLast?_eq_getLast s hne, List.getLast_mem hne⟩
      obtain ⟨z, hz1, hz2⟩ := hz
      have hzw : wc z = true := hword z hz2
      have hdropc : (c :: rest).drop s.length
          = ((c :: rest).takeWhile wc).drop s.length
            ++ (c :: rest).dropWhile wc := by
        conv_lhs => rw [← hsplit]
        rw [List.drop_append_of_le_length hle]
      have hdne : ((c :: rest).takeWhile wc).drop s.length ≠ [] := by
        intro hcon
        have := congrArg List.length hcon
        rw [List.length_drop] at this
        simp at this
        omega
      obtain ⟨w, ws, hws⟩ : ∃ w ws,
          ((c :: rest).takeWhile wc).drop s.length = w :: ws := by
        cases hcase : ((c :: rest).takeWhile wc).drop s.length with
        | nil => exact absurd hcase hdne
        | cons w ws => exact ⟨w, ws, rfl⟩
      have hwmem : w ∈ (c :: rest).takeWhile wc := by
        have : w ∈ ((c :: rest).takeWhile wc).drop s.length := by
          rw [hws]; simp
        exact List.mem_of_mem_drop this
      have hww : wc w = true := hrunword w hwmem
      rw [hdropc, hws] at hb2
      rw [hz1] at hb2
      simp [bdryB, optWord, hzw, hww] at hb2
    · -- equal length: s is the whole run
      have hlen : s.length = ((c :: rest).takeWhile wc).length := by omega
      rw [hs_take_run, hlen, List.take_length]
  · -- s longer than the word run: it would contain a non-word character
    exfalso
    push_neg at hle
    have hchunk : s = (c :: rest).takeWhile wc
        ++ ((c :: rest).dropWhile wc).take
            (s.length - ((c :: rest).takeWhile wc).length) := by
      conv_lhs => rw [hstake, ← hsplit]
      rw [List.take_append_eq_append_take,
        List.take_of_length_le (by omega)]
    have hrest_ne : (c :: rest).dropWhile wc ≠ [] := by
      intro hcon
      rw [hcon] at hchunk
      simp at hchunk
      have := congrArg List.length hchunk
      omega
    obtain ⟨y, ys, hys⟩ : ∃ y ys, (c :: rest).dropWhile wc = y :: ys := by
      cases hcase : (c :: rest).dropWhile wc with
      | nil => exact absurd hcase hrest_ne
      | cons y ys => exact ⟨y, ys, rfl⟩
    have hynw : wc y = false := by
      apply head?_dropWhile_not wc (c :: rest)
      rw [hys]
      rfl
    have hymem : y ∈ s := by
      rw [hchunk, hys]
      have hpos : 1 ≤ s.length - ((c :: rest).takeWhile wc).length := by
        omega
      cases hcase : s.length - ((c :: rest).takeWhile wc).length with
      | zero => omega
      | succ k =>
        simp [List.take_succ_cons]
    have := hword y hymem
    rw [hynw] at this
    cases this

theorem run_matchOk (wc : Char → Bool) (prev : Option Char) (hprev : optWord wc prev = false)
    (c : Char) (hw : wc c = true) (rest : List Char) :
    matchOk wc prev (c :: rest) ((c :: rest).takeWhile wc) = true := by
  have hrun_cons : (c :: rest).takeWhile wc
      = c :: rest.takeWhile wc := by
    simp [List.takeWhile_cons, hw]
  have hsplit : (c :: rest).takeWhile wc
      ++ (c :: rest).dropWhile wc = c :: rest :=
    List.takeWhile_append_dropWhile wc (c :: rest)
  have hpre : ((c :: rest).takeWhile wc).isPrefixOf (c :: rest) = true := by
    have h := isPrefixOf_append_self ((c :: rest).takeWhile wc)
      ((c :: rest).dropWhile wc)
    rwa [hsplit] at h
  have hhead : ((c :: rest).takeWhile wc).head? = some c := by
    rw [hrun_cons]
    rfl
  have hempty : ((c :: rest).takeWhile wc).isEmpty = false := by
    rw [hrun_cons]
    rfl
  have hdrop : (c :: rest).drop ((c :: rest).takeWhile wc).length
      = (c :: rest).dropWhile wc := by
    have h := List.drop_left ((c :: rest).takeWhile wc)
      ((c :: rest).dropWhile wc)
    rwa [hsplit] at h
  have hne : (c :: rest).takeWhile wc ≠ [] := by
    rw [hrun_cons]
    simp
  have hlastword : optWord wc ((c :: rest).takeWhile wc).getLast? = true := by
    rw [List.getLast?_eq_getLast _ hne]
    have hmem := List.getLast_mem hne
    have := List.mem_takeWhile_imp hmem
    simpa [optWord] using this
  have hafter : optWord wc (((c :: rest).dropWhile wc).head?) = false := by
    cases hy : ((c :: rest).dropWhile wc).head? with
    | none => rfl
    | some y => simpa [optWord] using head?_dropWhile_not wc _ y hy
  have hc2 : optWord wc (some c) = true := by simp [optWord, hw]
  have hb1 : bdryB wc prev ((c :: rest).takeWhile wc).head? = true := by
    rw [hhead]
    simp [bdryB, hprev, hc2]
  have hb2 : bdryB wc ((c :: rest).takeWhile wc).getLast?
      (((c :: rest).drop ((c :: rest).takeWhile wc).length).head?)
      = true := by
    rw [hdrop]
    simp [bdryB, hlastword, hafter]
  unfold matchOk
  rw [hempty, hpre, hb1, hb2]
  rfl

theorem subReGo_in_word (wc : Char → Bool) (secrets : List (List Char)) (repl : List Char)
    (hsec : ∀ s ∈ secrets, s ≠ [] ∧ ∀ c ∈ s, wc c = true) :
    ∀ (run : List Char) (fuel : Nat) (p : Char) (tail : List Char),
      (∀ x ∈ run, wc x = true) → wc p = true →
      run.length + tail.length ≤ fuel →
      subReGo wc secrets repl fuel (some p) (run ++ tail)
        = run ++ subReGo wc secrets repl (fuel - run.length)
            (some (run.getLastD p)) tail
  | [], fuel, p, tail, _, _, _ => by simp [List.getLastD]
  | x :: run', fuel, p, tail, hword, hp, hfuel => by
    cases fuel with
    | zero => simp [List.length_cons] at hfuel
    | succ f =>
      have hfm : firstMatch wc secrets (some p) (x :: (run' ++ tail)) = none :=
        firstMatch_word_prev wc secrets hsec (some p)
          (by simpa [optWord] using hp) _
      show subReGo wc secrets repl (f + 1) (some p) (x :: (run' ++ tail))
        = (x :: run') ++ _
      conv_lhs => rw [subReGo]
      rw [hfm]
      dsimp only
      have hx : wc x = true := hword x (by simp)
      rw [subReGo_in_word wc secrets repl hsec run' f x tail
        (fun y hy => hword y (by simp [hy])) hx
        (by simp [List.length_cons] at hfuel; omega)]
      simp only [List.cons_append, List.length_cons, Nat.succ_sub_succ,
        List.getLastD_cons]

theorem subReGo_eq_redactSpecWords (wc : Char → Bool) (secrets : List (List Char))
    (repl : List Char)
    (hsec : ∀ s ∈ secrets, s ≠ [] ∧ ∀ c ∈ s, wc c = true) :
    ∀ (n : Nat) (text : List Char) (prev : Option Char) (fuel1 fuel2 : Nat),
      text.length ≤ n → text.length ≤ fuel1 → text.length ≤ fuel2 →
      (optWord wc prev = false ∨ optWord wc text.head? = false) →
      subReGo wc secrets repl fuel1 prev text
        = redactSpecWords wc secrets repl fuel2 text := by
  intro n
  induction n with
  | zero =>
    intro text prev fuel1 fuel2 hn _ _ _
    have : text = [] := List.length_eq_zero.mp (Nat.le_zero.mp hn)
    subst this
    rw [subReGo_nil_text, redactSpecWords_nil]
  | succ n ih =>
    intro text prev fuel1 fuel2 hn h1 h2 hinv
    cases text with
    | nil => rw [subReGo_nil_text, redactSpecWords_nil]
    | cons c rest =>
      have hn' : rest.length + 1 ≤ n + 1 := by simpa using hn
      cases fuel1 with
      | zero => simp [List.length_cons] at h1
      | succ f1 =>
      cases fuel2 with
      | zero => simp [List.length_cons] at h2
      | succ f2 =>
      have h1' : rest.length + 1 ≤ f1 + 1 := by simpa using h1
      have h2' : rest.length + 1 ≤ f2 + 1 := by simpa using h2
      by_cases hw : wc c = true
      · have hprev : optWord wc prev = false := by
          rcases hinv with h | h
          · exact h
          · exfalso
            rw [List.head?_cons] at h
            simp [optWord, hw] at h
        have hrun_cons : (c :: rest).takeWhile wc
            = c :: rest.takeWhile wc := by
          simp [List.takeWhile_cons, hw]
        have hsplit : (c :: rest).takeWhile wc
            ++ (c :: rest).dropWhile wc = c :: rest :=
          List.takeWhile_append_dropWhile wc (c :: rest)
        have hlensplit : ((c :: rest).takeWhile wc).length
            + ((c :: rest).dropWhile wc).length = rest.length + 1 := by
          have h := congrArg List.length hsplit
          rw [List.length_append, List.length_cons] at h
          exact h
        have hrunlen : 1 ≤ ((c :: rest).takeWhile wc).length := by
          rw [hrun_cons]
          simp
        have hafter :
            optWord wc (((c :: rest).dropWhile wc).head?) = false := by
          cases hy : ((c :: rest).dropWhile wc).head? with
          | none => rfl
          | some y => simpa [optWord] using head?_dropWhile_not wc _ y hy
        cases hfm : firstMatch wc secrets prev (c :: rest) with
        | some s =>
          have hmem : s ∈ secrets := List.mem_of_find?_eq_some hfm
          have hok : matchOk wc prev (c :: rest) s = true := List.find?_some hfm
          rcases hsec s hmem with ⟨hne, hword⟩
          have hseq : s = (c :: rest).takeWhile wc :=
            matchOk_eq_run wc s hne hword c rest prev hok
          conv_lhs => rw [subReGo]
          rw [hfm]
          dsimp only
          conv_rhs => rw [redactSpecWords]
          rw [if_pos hw, if_pos (hseq ▸ hmem), hseq]
          have hdrop : (c :: rest).drop
              ((c :: rest).takeWhile wc).length
              = (c :: rest).dropWhile wc := by
            have h := List.drop_left ((c :: rest).takeWhile wc)
              ((c :: rest).dropWhile wc)
            rwa [hsplit] at h
          rw [hdrop]
          congr 1
          exact ih ((c :: rest).dropWhile wc) _ f1 f2
            (by omega) (by omega) (by omega) (Or.inr hafter)
        | none =>
          have hrunnot : (c :: rest).takeWhile wc ∉ secrets := by
            intro hmem
            have hok := run_matchOk wc prev hprev c hw rest
            rw [firstMatch, List.find?_eq_none] at hfm
            exact hfm _ hmem hok
          conv_lhs => rw [subReGo]
          rw [hfm]
          dsimp only
          conv_rhs => rw [redactSpecWords]
          rw [if_pos hw, if_neg hrunnot]
          have hdcons : (c :: rest).dropWhile wc
              = rest.dropWhile wc := by
            simp [List.dropWhile_cons, hw]
          have hrest_split : rest.takeWhile wc
              ++ (c :: rest).dropWhile wc = rest := by
            rw [hdcons]
            exact List.takeWhile_append_dropWhile wc rest
          have hlen1 : (rest.takeWhile wc).length
              + ((c :: rest).dropWhile wc).length = rest.length := by
            have h := congrArg List.length hrest_split
            rw [List.length_append] at h
            exact h
          have hwalk := subReGo_in_word wc secrets repl hsec
            (rest.takeWhile wc) f1 c
            ((c :: rest).dropWhile wc)
            (fun y hy => List.mem_takeWhile_imp hy) hw (by omega)
          rw [hrest_split] at hwalk
          rw [hwalk]
          rw [ih ((c :: rest).dropWhile wc)
            (some ((rest.takeWhile wc).getLastD c))
            (f1 - (rest.takeWhile wc).length) f2
            (by omega) (by omega) (by omega) (Or.inr hafter)]
          rw [hrun_cons]
          simp [List.cons_append]
      · have hfm : firstMatch wc secrets prev (c :: rest) = none :=
          firstMatch_nonword_head wc secrets hsec prev c (by simpa using hw) rest
        conv_lhs => rw [subReGo]
        rw [hfm]
        dsimp only
        conv_rhs => rw [redactSpecWords]
        rw [if_neg hw]
        rw [ih rest (some c) f1 f2 (by omega) (by omega) (by omega)
          (Or.inl (by simpa [optWord] using hw))]

/-! ## C8: word-boundary redaction -/

/-- C8 counterexample to the claim as stated: with the single secret `"a a"`
and text `"a a a"`, the secret has two word-boundary-bounded occurrences (at
positions 0 and 2), but they overlap, and `re.sub` replaces non-overlapping
matches only: the output `"[X] a"` contains the replacement token once, so
not every bounded occurrence was replaced with the token.  Every character
involved is ASCII, where Python's Unicode word classifier coincides with
`asciiWordChar`, so this evaluates exactly what the program does. -/
theorem c8_counterexample :
    boundedOccCount asciiWordChar "a a".data "a a a".data = 2 ∧
    replacer_re asciiWordChar ["a a".data] "[X]".data "a a a".data = "[X] a".data ∧
    countOcc "[X]".data "[X] a".data = 1 := by
  refine ⟨by decide, by decide, by decide⟩

/-- C8 (amended): word-boundary redaction replaces bounded occurrences
leftmost and non-overlapping, so overlapping bounded occurrences may
survive; when every secret consists solely of word characters — in which case
bounded occurrences are exactly the maximal word runs equal to a secret and
cannot overlap — `replacer_re` replaces every bounded occurrence of every
secret with the replacement token and leaves occurrences inside larger word
tokens unredacted: it coincides with the tokenization-based redaction
`redactSpec`.  The theorem holds for every word-character classifier `wc`,
in particular for Python's Unicode `\w` predicate, so word-character
secrets include Unicode-letter secrets. -/
theorem c8_word_boundary_redaction (wc : Char → Bool) (secrets : List (List Char))
    (repl : List Char) (text : List Char)
    (hsec : ∀ s ∈ secrets, s ≠ [] ∧ ∀ c ∈ s, wc c = true) :
    replacer_re wc secrets repl text = redactSpec wc secrets repl text :=
  subReGo_eq_redactSpecWords wc secrets repl hsec text.length text none
    text.length text.length le_rfl le_rfl le_rfl (Or.inl rfl)

/-- C8 witness: over the ASCII word classifier (which agrees with Python's
Unicode `\w` on these all-ASCII inputs), the secret `"sec"` as a separate
word is replaced at both of its whole-word occurrences, while the same
characters inside the larger token `"sec4"` are left unredacted. -/
theorem c8_witness :
    replacer_re asciiWordChar ["sec".data] "[X]".data "my sec is sec4 ok sec".data
      = "my [X] is sec4 ok [X]".data := by
  have h := c8_word_boundary_redaction asciiWordChar ["sec".data] "[X]".data
    "my sec is sec4 ok sec".data (by decide)
  rw [h]
  decide

end CentryLog
